import Mathlib

/-!
A shallow embedding of `src/fasm.py`, an assembler for a small stack-based
virtual machine.  The script parses an assembly source with parsy
combinators, builds a label table in a first pass over the node sequence,
renders each opcode node into its textual instruction in a second pass
(substituting branch targets with resolved addresses), and finally emits
one `alias __svm.<i> "<instruction>"` directive per instruction.

The parsy combinators used by the script (`regex`, `string`, `seq`, `<<`,
`>>`, `|`, `+`, `.map`, `.result`, `.many`, `.parse`) are embedded as
functions `List Char → Option (α × List Char)`; parsy's `|` is ordered
choice with full backtracking, `.many` repeats until failure, and
`.parse` demands that the whole input be consumed.  The regular
expressions of the script (`\s*`, `[A-Za-z_]+[A-Za-z0-9_]*`, `[0-9]+`,
`[0-9]*[.][0-9]+`, `word\b`) contain no constructs that require
backtracking into an earlier subpattern, so each is embedded as its
greedy maximal-munch reading.  `\s` Python classes are modelled on their
ASCII fragment (all inputs considered here are ASCII).
-/

namespace Fasm

/-! ### Character classes of the source's regular expressions -/

/-- `[A-Za-z_]`, the leading class of the `IDENTIFIER` regex. -/
def isIdentStart (c : Char) : Bool := c.isAlpha || c = '_'

/-- `[A-Za-z0-9_]`, the continuation class of `IDENTIFIER` and the word
class used by the `\b` boundary of `literal`. -/
def isWordChar (c : Char) : Bool := c.isAlpha || c.isDigit || c = '_'

/-- `\s` (ASCII fragment): the characters consumed by `WHITESPACE`. -/
def isSpaceChar (c : Char) : Bool :=
  c = ' ' || c = '\t' || c = '\n' || c = '\r' || c = '\x0b' || c = '\x0c'

/-! ### parsy combinator core -/

/-- A parsy parser: consumes a prefix of the remaining input, producing a
value and the rest, or fails. -/
def P (α : Type) : Type := List Char → Option (α × List Char)

variable {α β : Type}

/-- parsy `.map`. -/
def pmap (f : α → β) (p : P α) : P β :=
  fun s => (p s).map (fun r => (f r.1, r.2))

/-- parsy `|`: ordered choice, the second alternative is tried from the
same position when the first fails. -/
def por (p q : P α) : P α :=
  fun s => match p s with
  | none => q s
  | some r => some r

/-- parsy `seq` of two parsers (the script only ever uses binary `seq`):
run the first, then the second on the rest, pairing the results. -/
def pseq (p : P α) (q : P β) : P (α × β) :=
  fun s => (p s).bind (fun ar => (q ar.2).map (fun br => ((ar.1, br.1), br.2)))

/-- parsy `<<`: keep the left result. -/
def pleft (p : P α) (q : P β) : P α := pmap Prod.fst (pseq p q)

/-- parsy `>>`: keep the right result. -/
def pright (p : P α) (q : P β) : P β := pmap Prod.snd (pseq p q)

/-- Fuelled body of parsy `.many`: repeat `p` until it fails, collecting
results.  Every repeated parser of the script consumes at least one
character on success, so fuel `|input| + 1` never runs out before the
natural failure of `p`. -/
def pmanyF (p : P α) : Nat → P (List α)
  | 0 => fun s => some ([], s)
  | n + 1 => fun s =>
    match p s with
    | none => some ([], s)
    | some (a, r) => (pmanyF p n r).map (fun x => (a :: x.1, x.2))

/-- parsy `.many`. -/
def pmany (p : P α) : P (List α) := fun s => pmanyF p (s.length + 1) s

/-- `regex(r"\s*")` (`WHITESPACE`): consume the maximal run of whitespace. -/
def whitespaceP : P Unit := fun s => some ((), s.dropWhile isSpaceChar)

/-- `token`: run the parser, then consume trailing whitespace. -/
def tokenP (p : P α) : P α := pleft p whitespaceP

/-- Match a fixed character sequence, returning the remaining input. -/
def strMatch : List Char → List Char → Option (List Char)
  | [], s => some s
  | _ :: _, [] => none
  | c :: w, d :: s => if c = d then strMatch w s else none

/-- parsy `string(w)`. -/
def stringP (w : String) : P String :=
  fun s => (strMatch w.data s).map (fun r => (w, r))

/-- The `\b` check after a keyword: the next character must not be a word
character (the keyword's own last character is a word character, so the
boundary holds exactly when the following character is absent or not in
`[A-Za-z0-9_]`). -/
def boundaryOk : List Char → Bool
  | [] => true
  | c :: _ => !isWordChar c

/-- `literal(word)` = `token(regex(word + r"\b"))`: the keyword followed by
a word boundary, then trailing whitespace; the result is the matched word. -/
def literalP (w : String) : P String :=
  tokenP (fun s =>
    (strMatch w.data s).bind
      (fun r => if boundaryOk r then some (w, r) else none))

/-- `IDENTIFIER` = `regex("[A-Za-z_]+[A-Za-z0-9_]*")`: one leading
letter/underscore then the maximal run of word characters (the greedy
reading of the regex: the second class subsumes the first, so the whole
match is the maximal word-character run starting with `[A-Za-z_]`). -/
def identifierP : P String := fun s =>
  match s with
  | [] => none
  | c :: rest =>
    if isIdentStart c then
      some (String.mk (c :: rest.takeWhile isWordChar), rest.dropWhile isWordChar)
    else none

/-- `int()` on a digit string (Python arbitrary-precision integers). -/
def digitsVal (ds : List Char) : Nat :=
  ds.foldl (fun a c => 10 * a + (c.toNat - '0'.toNat)) 0

/-- `INTEGER` = `regex("[0-9]+").map(int)`. -/
def integerP : P Int := fun s =>
  let ds := s.takeWhile Char.isDigit
  if ds.isEmpty then none
  else some ((digitsVal ds : Int), s.dropWhile Char.isDigit)

/-! ### Python `float` model

`FLOAT` maps its matched text through Python's `float()`, and code
generation renders the value with `str()`.  A CPython float is an IEEE-754
binary64 value and `str` produces the shortest decimal that round-trips to
the same value.  Both directions are modelled exactly on the normal finite
range (which covers every literal the development evaluates): a value is a
pair `mantissa * 2^(exp2 - 52)` with `2^52 ≤ mantissa < 2^53` (or
`mantissa = 0` for zero), `float()` is correct rounding (round half to
even) of the exact decimal rational, and `str` searches the shortest
correctly-rounded decimal that rounds back to the same value. -/

/-- A nonnegative normal binary64 value `mantissa * 2^(exp2 - 52)`
(`mantissa = 0` encodes zero). -/
structure PyDouble where
  mantissa : Nat
  exp2 : Int
  deriving DecidableEq, Repr

/-- Is `num/den ≥ 2^e`? (`den > 0`). -/
def cmpPow2 (num den : Nat) (e : Int) : Bool :=
  if 0 ≤ e then den * 2 ^ e.toNat ≤ num else den ≤ num * 2 ^ (-e).toNat

/-- `⌊log2 n⌋` for `n ≥ 1` (fuelled halving loop). -/
def log2Aux : Nat → Nat → Nat
  | 0, _ => 0
  | fuel + 1, n => if n < 2 then 0 else 1 + log2Aux fuel (n / 2)

/-- `⌊log2 n⌋` for `n ≥ 1`. -/
def natLog2 (n : Nat) : Nat := log2Aux n n

/-- `⌊log2 (num/den)⌋` for `num, den ≥ 1`. -/
def floorLog2 (num den : Nat) : Int :=
  let g : Int := (natLog2 num : Int) - (natLog2 den : Int)
  if cmpPow2 num den g then g else g - 1

/-- Round `a / b` to the nearest integer, ties to even (`b > 0`). -/
def roundHalfEvenDiv (a b : Nat) : Nat :=
  let q := a / b
  let r := a % b
  if b < 2 * r then q + 1
  else if 2 * r < b then q
  else if q % 2 = 0 then q else q + 1

/-- Correctly round the rational `num / den` (`den > 0`) to a binary64
value: Python `float()` on the exact decimal value of a literal. -/
def roundRatToDouble (num den : Nat) : PyDouble :=
  if num = 0 then ⟨0, 0⟩
  else
    let e := floorLog2 num den
    let s : Int := 52 - e
    let m :=
      if 0 ≤ s then roundHalfEvenDiv (num * 2 ^ s.toNat) den
      else roundHalfEvenDiv num (den * 2 ^ (-s).toNat)
    if m = 2 ^ 53 then ⟨2 ^ 52, e + 1⟩ else ⟨m, e⟩

/-- `float()` applied to the text matched by `FLOAT`: integer-part value
`ip`, fractional-part value `f` written with `k` digits. -/
def pyFloatOfParts (ip f k : Nat) : PyDouble :=
  roundRatToDouble (ip * 10 ^ k + f) (10 ^ k)

/-- The exact value of a `PyDouble` as a fraction. -/
def doubleToRat (d : PyDouble) : Nat × Nat :=
  if 0 ≤ d.exp2 - 52 then (d.mantissa * 2 ^ (d.exp2 - 52).toNat, 1)
  else (d.mantissa, 2 ^ (52 - d.exp2).toNat)

/-- Number of decimal digits of `n ≥ 1` (fuelled division loop). -/
def numDigitsAux : Nat → Nat → Nat
  | 0, _ => 0
  | fuel + 1, n => if n < 10 then 1 else 1 + numDigitsAux fuel (n / 10)

/-- Number of decimal digits of `n ≥ 1`. -/
def numDigits10 (n : Nat) : Nat := numDigitsAux n n

/-- Is `num/den ≥ 10^e`? (`den > 0`). -/
def cmpPow10 (num den : Nat) (e : Int) : Bool :=
  if 0 ≤ e then den * 10 ^ e.toNat ≤ num else den ≤ num * 10 ^ (-e).toNat

/-- `⌊log10 (num/den)⌋` for `num, den ≥ 1`. -/
def floorLog10 (num den : Nat) : Int :=
  let g : Int := (numDigits10 num : Int) - (numDigits10 den : Int)
  if cmpPow10 num den g then g else g - 1

/-- The correctly-rounded `p`-significant-digit decimal `D * 10^t` nearest
to `num/den` (`p ≥ 1`, `num, den ≥ 1`). -/
def decForPrec (num den : Nat) (p : Nat) : Nat × Int :=
  let e10 := floorLog10 num den
  let t : Int := e10 - (p : Int) + 1
  let d :=
    if 0 ≤ t then roundHalfEvenDiv num (den * 10 ^ t.toNat)
    else roundHalfEvenDiv (num * 10 ^ (-t).toNat) den
  if d = 10 ^ p then (10 ^ (p - 1), t + 1) else (d, t)

/-- `float()` on the decimal `D * 10^t`. -/
def doubleOfDec (d : Nat) (t : Int) : PyDouble :=
  if 0 ≤ t then roundRatToDouble (d * 10 ^ t.toNat) 1
  else roundRatToDouble d (10 ^ (-t).toNat)

/-- First precision among `ps` whose rounded decimal round-trips to `x`
(17 significant digits always round-trip for binary64). -/
def firstRoundTrip (num den : Nat) (x : PyDouble) : List Nat → Nat × Int
  | [] => decForPrec num den 17
  | p :: ps =>
    let c := decForPrec num den p
    if doubleOfDec c.1 c.2 = x then c else firstRoundTrip num den x ps

/-- The shortest round-tripping decimal of a nonzero `PyDouble`. -/
def shortestDec (x : PyDouble) : Nat × Int :=
  let r := doubleToRat x
  firstRoundTrip r.1 r.2 x (List.range' 1 17)

/-- Drop trailing zero digits, moving them into the exponent. -/
def stripZerosAux : Nat → Nat → Int → Nat × Int
  | 0, d, t => (d, t)
  | fuel + 1, d, t =>
    if 10 ≤ d && d % 10 = 0 then stripZerosAux fuel (d / 10) (t + 1) else (d, t)

/-- Drop trailing zero digits of a significand. -/
def stripZeros (d : Nat) (t : Int) : Nat × Int := stripZerosAux 17 d t

/-- Python `str`/`repr` of a float: shortest round-tripping decimal,
formatted fixed-point for decimal exponents in `[-4, 16)` and in
scientific notation otherwise, always keeping a digit on each side of the
point (`7.0`, `0.5`, `1e+16`, `1.5e-05`). -/
def pyReprDouble (x : PyDouble) : String :=
  if x.mantissa = 0 then "0.0"
  else
    let s0 := shortestDec x
    let s1 := stripZeros s0.1 s0.2
    let ds := toString s1.1
    let k : Int := (ds.length : Int)
    let decExp : Int := s1.2 + k - 1
    if decExp < -4 || 16 ≤ decExp then
      let mant := if k = 1 then ds else ds.take 1 ++ "." ++ ds.drop 1
      let esign := if decExp < 0 then "-" else "+"
      let eabs := (if decExp < 0 then -decExp else decExp).toNat
      let estr := if eabs < 10 then "0" ++ toString eabs else toString eabs
      mant ++ "e" ++ esign ++ estr
    else if decExp < 0 then
      "0." ++ String.mk (List.replicate (-decExp - 1).toNat '0') ++ ds
    else if k ≤ decExp then
      ds ++ String.mk (List.replicate (decExp + 1 - k).toNat '0') ++ ".0"
    else if k = decExp + 1 then ds ++ ".0"
    else ds.take (decExp + 1).toNat ++ "." ++ ds.drop (decExp + 1).toNat

/-- `FLOAT` = `regex("[0-9]*[.][0-9]+").map(float)`. -/
def floatP : P PyDouble := fun s =>
  let ip := s.takeWhile Char.isDigit
  match s.dropWhile Char.isDigit with
  | '.' :: rest =>
    let fp := rest.takeWhile Char.isDigit
    if fp.isEmpty then none
    else
      some (pyFloatOfParts (digitsVal ip) (digitsVal fp) fp.length,
        rest.dropWhile Char.isDigit)
  | _ => none

/-! ### The fasm grammar -/

/-- An opcode argument as stored in the node dictionaries of the script:
a Python `int` (integer literals and the `1`/`0` results of the boolean
keywords), a Python `float`, or a Python `str` (identifiers, and the
`"/" + identifier` concatenation produced for push string literals). -/
inductive Arg where
  | int (n : Int)
  | float (x : PyDouble)
  | str (s : String)
  deriving DecidableEq, Repr

/-- A syntax node: the `{"type": "label", ...}` / `{"type": "opcode", ...}`
dictionaries produced by the `label` and `opcode` mapping functions. -/
inductive Node where
  | label (name : String)
  | opcode (op : String) (arg : Option Arg)
  deriving DecidableEq, Repr

/-- `NUMBER = FLOAT | INTEGER`. -/
def numberP : P Arg := por (pmap Arg.float floatP) (pmap Arg.int integerP)

/-- `BOOLEAN = TRUE | FALSE` with `TRUE = literal("true").result(1)` and
`FALSE = literal("false").result(0)`. -/
def booleanP : P Arg :=
  por (pmap (fun _ => Arg.int 1) (literalP "true"))
    (pmap (fun _ => Arg.int 0) (literalP "false"))

/-- `FORWARD_SLASH + IDENTIFIER`: parsy `+` concatenates the two string
results, so the value carries the leading `/`. -/
def slashStringP : P Arg :=
  pmap (fun r => Arg.str (r.1 ++ r.2)) (pseq (stringP "/") identifierP)

/-- `PUSH = seq(literal("push"), NUMBER | BOOLEAN | FORWARD_SLASH + IDENTIFIER)`,
already taken through the `opcode` dictionary mapping. -/
def pushP : P Node :=
  pmap (fun r => Node.opcode r.1 (some r.2))
    (pseq (literalP "push") (por numberP (por booleanP slashStringP)))

/-- A zero-argument opcode keyword, taken through the `opcode` mapping. -/
def plainOpP (w : String) : P Node :=
  pmap (fun v => Node.opcode v none) (literalP w)

/-- `STACK_OP = PUSH | POP | DUP | DOT`. -/
def stackOpP : P Node :=
  por pushP (por (plainOpP "pop") (por (plainOpP "dup") (plainOpP "dot")))

/-- `ARITHMETIC_OP = ADD | SUB | MUL | DIV | POW | MIN | MAX`. -/
def arithOpP : P Node :=
  por (plainOpP "add") (por (plainOpP "sub") (por (plainOpP "mul")
    (por (plainOpP "div") (por (plainOpP "pow")
      (por (plainOpP "min") (plainOpP "max"))))))

/-- `BRANCH_OP = seq(JMP | JIF | CALL, IDENTIFIER) | RET`. -/
def branchOpP : P Node :=
  por
    (pmap (fun r => Node.opcode r.1 (some (Arg.str r.2)))
      (pseq (por (literalP "jmp") (por (literalP "jif") (literalP "call")))
        identifierP))
    (plainOpP "ret")

/-- `LOGICAL_OP`: the comparison keywords, each `.result`-rewritten to its
canonical internal name. -/
def logicalOpP : P Node :=
  por (pmap (fun _ => Node.opcode "iseq" none) (literalP "eq"))
    (por (pmap (fun _ => Node.opcode "isneq" none) (literalP "ne"))
      (por (pmap (fun _ => Node.opcode "islt" none) (literalP "lt"))
        (por (pmap (fun _ => Node.opcode "isle" none) (literalP "le"))
          (por (pmap (fun _ => Node.opcode "isgt" none) (literalP "gt"))
            (pmap (fun _ => Node.opcode "isge" none) (literalP "ge"))))))

/-- `IO_OP = seq(STORE | LOAD | GSTORE | GLOAD, IDENTIFIER)` with the
`.result` rewrites to the canonical internal names. -/
def ioOpP : P Node :=
  pmap (fun r => Node.opcode r.1 (some (Arg.str r.2)))
    (pseq
      (por (pmap (fun _ => "store_l") (literalP "store"))
        (por (pmap (fun _ => "load_l") (literalP "load"))
          (por (pmap (fun _ => "store_g") (literalP "gstore"))
            (pmap (fun _ => "load_g") (literalP "gload")))))
      identifierP)

/-- `OPCODE = token(STACK_OP | ARITHMETIC_OP | BRANCH_OP | LOGICAL_OP | IO_OP | HLT)`
taken through the `opcode` dictionary mapping. -/
def opcodeP : P Node :=
  tokenP (por stackOpP (por arithOpP (por branchOpP
    (por logicalOpP (por ioOpP (plainOpP "hlt"))))))

/-- `LABEL = token(IDENTIFIER << COLON).map(label)`. -/
def labelP : P Node :=
  tokenP (pmap Node.label (pleft identifierP (stringP ":")))

/-- `statement = LABEL | OPCODE`. -/
def statementP : P Node := por labelP opcodeP

/-- `program = WHITESPACE >> statement.many()`. -/
def programP : P (List Node) := pright whitespaceP (pmany statementP)

/-- `program.parse(source_code)`: parsy `.parse` succeeds only when the
whole input is consumed, and raises `ParseError` otherwise. -/
def parseProgram (src : String) : Option (List Node) :=
  match programP src.data with
  | some (ast, []) => some ast
  | _ => none

/-! ### Pass 1: the label table -/

/-- The label-table loop of the script: walks the nodes with
`address_counter` starting at 0, binding `labels[label] = label_address`
at each label node and incrementing the counter at each opcode node.
The table is an association list where the most recent binding is consed
on front, matching Python dict assignment/lookup (last binding wins);
the final counter value is returned alongside. -/
def labelPass : List Node → Nat → List (String × Nat) → List (String × Nat) × Nat
  | [], addr, labels => (labels, addr)
  | .label name :: rest, addr, labels => labelPass rest addr ((name, addr) :: labels)
  | .opcode _ _ :: rest, addr, labels => labelPass rest (addr + 1) labels

/-- The completed label table of a node sequence. -/
def buildLabels (ast : List Node) : List (String × Nat) :=
  (labelPass ast 0 []).1

/-- Number of `Instruction` (opcode) nodes in a node sequence. -/
def countInstr : List Node → Nat
  | [] => 0
  | .label _ :: rest => countInstr rest
  | .opcode _ _ :: rest => 1 + countInstr rest

/-- Names of the label nodes of a node sequence. -/
def labelNames : List Node → List String
  | [] => []
  | .label name :: rest => name :: labelNames rest
  | .opcode _ _ :: rest => labelNames rest

/-! ### Pass 2: code generation -/

/-- The branch opcodes tested by `opcode in ("call", "jmp", "jif")`. -/
def branchOps : List String := ["call", "jmp", "jif"]

/-- Python `f"{arg}"` on an argument value. -/
def renderArg : Arg → String
  | .int n => toString n
  | .float x => pyReprDouble x
  | .str s => s

/-- `label_name not in labels.keys()` / `labels[label_name]`: a Python dict
whose keys are strings finds nothing for a non-string key. -/
def lookupArg (labels : List (String × Nat)) : Arg → Option Nat
  | .str s => labels.lookup s
  | _ => none

/-- The body of the code-generation loop for one opcode node: branch
instructions substitute the label-table address (raising on a missing
label), argument-less opcodes render alone, and any other argument is
rendered with `f"{opcode} {arg}"`. -/
def renderOne (labels : List (String × Nat)) (op : String) :
    Option Arg → Except String String
  | some a =>
    if op ∈ branchOps then
      match lookupArg labels a with
      | none => .error ("Undefined label: '" ++ renderArg a ++ "'")
      | some addr => .ok (op ++ " " ++ toString addr)
    else .ok (op ++ " " ++ renderArg a)
  | none => .ok op

/-- The code-generation loop: label nodes are skipped, opcode nodes are
rendered in order, and the first raised error aborts the pass. -/
def codegen (labels : List (String × Nat)) : List Node → Except String (List String)
  | [] => .ok []
  | .label _ :: rest => codegen labels rest
  | .opcode op arg :: rest =>
    match renderOne labels op arg with
    | .error e => .error e
    | .ok s =>
      match codegen labels rest with
      | .error e => .error e
      | .ok out => .ok (s :: out)

/-! ### Emission -/

/-- One output directive: `f'alias __svm.{index} "{instruction}"\n'`. -/
def directive (i : Nat) (s : String) : String :=
  "alias __svm." ++ toString i ++ " \"" ++ s ++ "\"\n"

/-- The emission loop from index `i`. -/
def emitFrom (i : Nat) : List String → String
  | [] => ""
  | s :: rest => directive i s ++ emitFrom (i + 1) rest

/-- The `vm_program` string accumulated over `enumerate(instructions)`. -/
def emit (instructions : List String) : String := emitFrom 0 instructions

/-! ### The whole pipeline -/

instance instDecEqExcept {ε σ : Type} [DecidableEq ε] [DecidableEq σ] :
    DecidableEq (Except ε σ) := fun x y =>
  match x, y with
  | .ok a, .ok b =>
    if h : a = b then .isTrue (by rw [h])
    else .isFalse (fun hc => h (by injection hc))
  | .ok _, .error _ => .isFalse (fun hc => Except.noConfusion hc)
  | .error _, .ok _ => .isFalse (fun hc => Except.noConfusion hc)
  | .error e, .error f =>
    if h : e = f then .isTrue (by rw [h])
    else .isFalse (fun hc => h (by injection hc))

/-- A fatal assembler error: parsy's `ParseError` from `program.parse`, or
the undefined-label exception raised during code generation. -/
inductive AsmError where
  | parseFailure
  | undefinedLabel (msg : String)
  deriving DecidableEq, Repr

/-- Source text to rendered instruction list: parse, build the label
table, generate code.  An error produces no instruction list. -/
def assembleInstrs (src : String) : Except AsmError (List String) :=
  match parseProgram src with
  | none => .error .parseFailure
  | some ast =>
    match codegen (buildLabels ast) ast with
    | .error m => .error (.undefinedLabel m)
    | .ok out => .ok out

/-- Source text to emitted output file content.  An error produces no
output. -/
def assemble (src : String) : Except AsmError String :=
  (assembleInstrs src).map emit

/-- A string of identifier shape: what the `IDENTIFIER` regex matches in
full. -/
def isIdentString (w : String) : Bool :=
  match w.data with
  | [] => false
  | c :: cs => isIdentStart c && cs.all isWordChar

/-! ### Evaluation and inversion lemmas for the combinators -/

theorem pmap_eval {f : α → β} {p : P α} {s : List Char} :
    pmap f p s = (p s).map (fun r => (f r.1, r.2)) := rfl

theorem por_first {p q : P α} {s : List Char} {r : α × List Char}
    (h : p s = some r) : por p q s = some r := by
  unfold por; rw [h]

theorem por_second {p q : P α} {s : List Char} (h : p s = none) :
    por p q s = q s := by
  unfold por; rw [h]

theorem pseq_eval {p : P α} {q : P β} {s : List Char} {a : α} {m : List Char}
    (hp : p s = some (a, m)) :
    pseq p q s = (q m).map (fun r => ((a, r.1), r.2)) := by
  unfold pseq
  rw [hp]
  rfl

theorem pseq_fail {p : P α} {q : P β} {s : List Char} (hp : p s = none) :
    pseq p q s = none := by
  unfold pseq
  rw [hp]
  rfl

theorem pmap_eq_some {f : α → β} {p : P α} {s : List Char} {b : β} {r : List Char}
    (h : pmap f p s = some (b, r)) : ∃ a, p s = some (a, r) ∧ b = f a := by
  unfold pmap at h
  cases hp : p s with
  | none => rw [hp] at h; cases h
  | some ar =>
    rw [hp] at h
    obtain ⟨a, r'⟩ := ar
    simp only [Option.map_some', Option.some.injEq, Prod.mk.injEq] at h
    obtain ⟨hb, hr⟩ := h
    subst hr
    exact ⟨a, rfl, hb.symm⟩

theorem por_eq_some {p q : P α} {s : List Char} {r : α × List Char}
    (h : por p q s = some r) :
    p s = some r ∨ (p s = none ∧ q s = some r) := by
  unfold por at h
  cases hp : p s with
  | none => rw [hp] at h; exact .inr ⟨rfl, h⟩
  | some x =>
    rw [hp] at h
    exact .inl h

theorem pseq_eq_some {p : P α} {q : P β} {s : List Char} {ab : α × β} {r : List Char}
    (h : pseq p q s = some (ab, r)) :
    ∃ m, p s = some (ab.1, m) ∧ q m = some (ab.2, r) := by
  obtain ⟨a0, b0⟩ := ab
  unfold pseq at h
  cases hp : p s with
  | none => rw [hp] at h; cases h
  | some ar =>
    obtain ⟨a, m⟩ := ar
    rw [hp, Option.some_bind] at h
    cases hq : q m with
    | none => rw [hq] at h; cases h
    | some br =>
      obtain ⟨b, r'⟩ := br
      rw [hq] at h
      simp only [Option.map_some', Option.some.injEq, Prod.mk.injEq] at h
      obtain ⟨⟨h1, h2⟩, h3⟩ := h
      subst h1; subst h2; subst h3
      exact ⟨m, rfl, hq⟩

theorem tokenP_eq_some {p : P α} {s : List Char} {a : α} {r : List Char}
    (h : tokenP p s = some (a, r)) : ∃ m, p s = some (a, m) := by
  unfold tokenP pleft at h
  obtain ⟨x, hx, hax⟩ := pmap_eq_some h
  obtain ⟨m, hm, _⟩ := pseq_eq_some hx
  exact ⟨m, by rw [hax]; exact hm⟩

theorem tokenP_isSome {p : P α} {s : List Char} :
    (tokenP p s).isSome = (p s).isSome := by
  unfold tokenP pleft pmap pseq whitespaceP
  cases hp : p s with
  | none => rfl
  | some ar => rfl

theorem literalP_val {w : String} {s : List Char} {v : String} {r : List Char}
    (h : literalP w s = some (v, r)) : v = w := by
  unfold literalP at h
  obtain ⟨m, hm⟩ := tokenP_eq_some h
  cases hsm : strMatch w.data s with
  | none => rw [hsm] at hm; cases hm
  | some r0 =>
    rw [hsm, Option.some_bind] at hm
    by_cases hb : boundaryOk r0 = true
    · rw [if_pos hb] at hm
      simp only [Option.some.injEq, Prod.mk.injEq] at hm
      exact hm.1.symm
    · rw [if_neg hb] at hm; cases hm

theorem strMatch_char (w : List Char) : ∀ s : List Char,
    strMatch w s = if s.take w.length = w then some (s.drop w.length) else none := by
  induction w with
  | nil => intro s; simp [strMatch]
  | cons c w ih =>
    intro s
    cases s with
    | nil => simp [strMatch]
    | cons d s =>
      simp only [strMatch]
      by_cases h : c = d
      · subst h
        rw [if_pos rfl, ih s]
        simp only [List.length_cons, List.take_succ_cons, List.drop_succ_cons,
          List.cons.injEq, true_and]
      · rw [if_neg h]
        have hne : ¬((d :: s).take (c :: w).length = c :: w) := by
          simp only [List.length_cons, List.take_succ_cons, List.cons.injEq]
          intro hc
          exact h hc.1.symm
        rw [if_neg hne]

/-! ### List helpers for the greedy character-class regexes -/

theorem takeWhile_append_all {p : Char → Bool} {xs : List Char} (ys : List Char)
    (h : ∀ c ∈ xs, p c = true) :
    (xs ++ ys).takeWhile p = xs ++ ys.takeWhile p := by
  induction xs with
  | nil => simp
  | cons x xs ih =>
    have hx : p x = true := h x (by simp)
    simp only [List.cons_append, List.takeWhile_cons, hx, if_true]
    rw [ih (fun c hc => h c (by simp [hc]))]

theorem dropWhile_append_all {p : Char → Bool} {xs : List Char} (ys : List Char)
    (h : ∀ c ∈ xs, p c = true) :
    (xs ++ ys).dropWhile p = ys.dropWhile p := by
  induction xs with
  | nil => simp
  | cons x xs ih =>
    have hx : p x = true := h x (by simp)
    simp only [List.cons_append, List.dropWhile_cons, hx, if_true]
    exact ih (fun c hc => h c (by simp [hc]))

theorem takeWhile_all {p : Char → Bool} {xs : List Char}
    (h : ∀ c ∈ xs, p c = true) : xs.takeWhile p = xs := by
  have := takeWhile_append_all (p := p) [] h
  simpa using this

theorem dropWhile_all {p : Char → Bool} {xs : List Char}
    (h : ∀ c ∈ xs, p c = true) : xs.dropWhile p = [] := by
  have := dropWhile_append_all (p := p) [] h
  simpa using this

theorem boundaryOk_cons {c : Char} {r : List Char} (h : boundaryOk (c :: r) = true) :
    isWordChar c = false := by
  simp only [boundaryOk, Bool.not_eq_true'] at h
  exact h

theorem takeWhile_boundary {r : List Char} (h : boundaryOk r = true) :
    r.takeWhile isWordChar = [] := by
  cases r with
  | nil => rfl
  | cons c r => simp [List.takeWhile_cons, boundaryOk_cons h]

theorem dropWhile_boundary {r : List Char} (h : boundaryOk r = true) :
    r.dropWhile isWordChar = r := by
  cases r with
  | nil => rfl
  | cons c r => simp [List.dropWhile_cons, boundaryOk_cons h]

theorem space_not_digit {c : Char} (h : isSpaceChar c = true) :
    c.isDigit = false := by
  simp only [isSpaceChar, Bool.or_eq_true, decide_eq_true_eq] at h
  rcases h with ((((h | h) | h) | h) | h) | h <;> subst h <;> decide

theorem digit_not_space {c : Char} (h : c.isDigit = true) :
    isSpaceChar c = false := by
  cases hs : isSpaceChar c with
  | false => rfl
  | true => rw [space_not_digit hs] at h; cases h

theorem space_not_identStart {c : Char} (h : isSpaceChar c = true) :
    isIdentStart c = false := by
  simp only [isSpaceChar, Bool.or_eq_true, decide_eq_true_eq] at h
  rcases h with ((((h | h) | h) | h) | h) | h <;> subst h <;> decide

theorem dropWhile_space_digits {ds : List Char}
    (h : ∀ c ∈ ds, c.isDigit = true) : ds.dropWhile isSpaceChar = ds := by
  cases ds with
  | nil => rfl
  | cons d rest =>
    have hd : isSpaceChar d = false := digit_not_space (h d (by simp))
    simp [List.dropWhile_cons, hd]

/-- The `IDENTIFIER` regex consumes exactly an identifier-shaped string
when what follows cannot extend the match. -/
theorem identifierP_exact (l : String) (r : List Char)
    (hl : isIdentString l = true) (hr : boundaryOk r = true) :
    identifierP (l.data ++ r) = some (l, r) := by
  obtain ⟨ld⟩ := l
  unfold isIdentString at hl
  cases ld with
  | nil => cases hl
  | cons c cs =>
    simp only [Bool.and_eq_true, List.all_eq_true] at hl
    obtain ⟨h1, h2⟩ := hl
    unfold identifierP
    simp only [List.cons_append]
    rw [if_pos h1]
    rw [takeWhile_append_all r h2, dropWhile_append_all r h2,
      takeWhile_boundary hr, dropWhile_boundary hr]
    simp

/-! ### Label-table lemmas -/

theorem lookup_cons_self {n : String} {v : Nat} {t : List (String × Nat)} :
    ((n, v) :: t).lookup n = some v := by
  simp [List.lookup]

theorem lookup_cons_ne {n m : String} {v : Nat} {t : List (String × Nat)}
    (h : n ≠ m) : ((m, v) :: t).lookup n = t.lookup n := by
  simp [List.lookup, beq_eq_false_iff_ne.mpr h]

theorem labelPass_append (xs ys : List Node) : ∀ (a : Nat) (t : List (String × Nat)),
    labelPass (xs ++ ys) a t =
      labelPass ys (labelPass xs a t).2 (labelPass xs a t).1 := by
  induction xs with
  | nil => intro a t; rfl
  | cons x xs ih =>
    intro a t
    cases x with
    | label n => simp only [List.cons_append, labelPass]; exact ih ..
    | opcode op arg => simp only [List.cons_append, labelPass]; exact ih ..

theorem labelPass_counter (xs : List Node) : ∀ (a : Nat) (t : List (String × Nat)),
    (labelPass xs a t).2 = a + countInstr xs := by
  induction xs with
  | nil => intro a t; simp [labelPass, countInstr]
  | cons x xs ih =>
    intro a t
    cases x with
    | label n => simp only [labelPass, countInstr]; exact ih ..
    | opcode op arg =>
      simp only [labelPass, countInstr]
      rw [ih]
      omega

theorem labelPass_lookup_skip (xs : List Node) : ∀ (a : Nat) (t : List (String × Nat))
    (n : String), n ∉ labelNames xs →
    ((labelPass xs a t).1).lookup n = t.lookup n := by
  induction xs with
  | nil => intro a t n _; rfl
  | cons x xs ih =>
    intro a t n h
    cases x with
    | label m =>
      simp only [labelNames, List.mem_cons, not_or] at h
      simp only [labelPass]
      rw [ih _ _ _ h.2, lookup_cons_ne h.1]
    | opcode op arg =>
      simp only [labelNames] at h
      simp only [labelPass]
      exact ih _ _ _ h

theorem labelPass_lookup_mem (xs : List Node) : ∀ (a : Nat) (t : List (String × Nat))
    (n : String), n ∈ labelNames xs →
    ∃ v, ((labelPass xs a t).1).lookup n = some v := by
  induction xs with
  | nil => intro a t n h; cases h
  | cons x xs ih =>
    intro a t n h
    cases x with
    | label m =>
      simp only [labelPass]
      by_cases hn : n ∈ labelNames xs
      · exact ih _ _ _ hn
      · simp only [labelNames, List.mem_cons] at h
        rcases h with rfl | h
        · rw [labelPass_lookup_skip _ _ _ _ hn, lookup_cons_self]
          exact ⟨a, rfl⟩
        · exact absurd h hn
    | opcode op arg =>
      simp only [labelNames] at h
      simp only [labelPass]
      exact ih _ _ _ h

theorem buildLabels_lookup_last (pre post : List Node) (name : String)
    (hlast : name ∉ labelNames post) :
    (buildLabels (pre ++ Node.label name :: post)).lookup name =
      some (countInstr pre) := by
  unfold buildLabels
  rw [labelPass_append]
  simp only [labelPass]
  rw [labelPass_lookup_skip _ _ _ _ hlast, lookup_cons_self,
    labelPass_counter, Nat.zero_add]

theorem buildLabels_lookup_none_iff (xs : List Node) (n : String) :
    (buildLabels xs).lookup n = none ↔ n ∉ labelNames xs := by
  constructor
  · intro h hmem
    obtain ⟨v, hv⟩ := labelPass_lookup_mem xs 0 [] n hmem
    unfold buildLabels at h
    rw [h] at hv
    cases hv
  · intro h
    unfold buildLabels
    rw [labelPass_lookup_skip _ _ _ _ h]
    rfl

/-! ### Code-generation lemmas -/

theorem renderOne_none (labels : List (String × Nat)) (op : String) :
    renderOne labels op none = .ok op := rfl

theorem renderOne_branch_hit (labels : List (String × Nat)) (op : String)
    (a : Arg) (addr : Nat) (hop : op ∈ branchOps)
    (hl : lookupArg labels a = some addr) :
    renderOne labels op (some a) = .ok (op ++ " " ++ toString addr) := by
  simp only [renderOne]
  rw [if_pos hop, hl]

theorem renderOne_branch_miss (labels : List (String × Nat)) (op : String)
    (a : Arg) (hop : op ∈ branchOps) (hl : lookupArg labels a = none) :
    renderOne labels op (some a) =
      .error ("Undefined label: '" ++ renderArg a ++ "'") := by
  simp only [renderOne]
  rw [if_pos hop, hl]

theorem renderOne_plain (labels : List (String × Nat)) (op : String)
    (a : Arg) (hop : op ∉ branchOps) :
    renderOne labels op (some a) = .ok (op ++ " " ++ renderArg a) := by
  simp only [renderOne]
  rw [if_neg hop]

theorem renderOne_error_iff (labels : List (String × Nat)) (op : String)
    (arg : Option Arg) :
    (∃ e, renderOne labels op arg = .error e) ↔
      ∃ a, arg = some a ∧ op ∈ branchOps ∧ lookupArg labels a = none := by
  constructor
  · rintro ⟨e, he⟩
    cases arg with
    | none => rw [renderOne_none] at he; cases he
    | some a =>
      by_cases hop : op ∈ branchOps
      · cases hl : lookupArg labels a with
        | none => exact ⟨a, rfl, hop, hl⟩
        | some addr => rw [renderOne_branch_hit _ _ _ _ hop hl] at he; cases he
      · rw [renderOne_plain _ _ _ hop] at he; cases he
  · rintro ⟨a, rfl, hop, hl⟩
    exact ⟨_, renderOne_branch_miss _ _ _ hop hl⟩

theorem codegen_cons_label (labels : List (String × Nat)) (m : String)
    (rest : List Node) :
    codegen labels (Node.label m :: rest) = codegen labels rest := rfl

theorem codegen_cons_op_err (labels : List (String × Nat)) (op : String)
    (arg : Option Arg) (rest : List Node) (e : String)
    (h : renderOne labels op arg = .error e) :
    codegen labels (Node.opcode op arg :: rest) = .error e := by
  unfold codegen
  rw [h]

theorem codegen_cons_op_ok (labels : List (String × Nat)) (op : String)
    (arg : Option Arg) (rest : List Node) (s : String)
    (h : renderOne labels op arg = .ok s) :
    codegen labels (Node.opcode op arg :: rest) =
      match codegen labels rest with
      | .error e => .error e
      | .ok out => .ok (s :: out) := by
  simp only [codegen, h]

theorem codegen_ok_length (labels : List (String × Nat)) (ast : List Node) :
    ∀ out, codegen labels ast = .ok out → out.length = countInstr ast := by
  induction ast with
  | nil =>
    intro out h
    have h' : Except.ok (ε := String) ([] : List String) = .ok out := h
    injection h' with h1
    rw [← h1]
    rfl
  | cons x rest ih =>
    intro out h
    cases x with
    | label m =>
      rw [codegen_cons_label] at h
      rw [ih out h]
      rfl
    | opcode op arg =>
      cases hr : renderOne labels op arg with
      | error e => rw [codegen_cons_op_err _ _ _ _ _ hr] at h; cases h
      | ok s =>
        rw [codegen_cons_op_ok _ _ _ _ _ hr] at h
        cases hc : codegen labels rest with
        | error e => rw [hc] at h; cases h
        | ok out' =>
          rw [hc] at h
          have : s :: out' = out := by injection h
          rw [← this]
          simp only [List.length_cons, countInstr]
          rw [ih out' hc]
          omega

theorem codegen_error_iff (labels : List (String × Nat)) (ast : List Node) :
    (∃ e, codegen labels ast = .error e) ↔
      ∃ op a, Node.opcode op (some a) ∈ ast ∧ op ∈ branchOps ∧
        lookupArg labels a = none := by
  induction ast with
  | nil =>
    constructor
    · rintro ⟨e, he⟩; cases he
    · rintro ⟨op, a, hmem, -, -⟩; cases hmem
  | cons x rest ih =>
    cases x with
    | label m =>
      rw [codegen_cons_label, ih]
      constructor
      · rintro ⟨op, a, hmem, hop, hl⟩
        exact ⟨op, a, List.mem_cons_of_mem _ hmem, hop, hl⟩
      · rintro ⟨op, a, hmem, hop, hl⟩
        rcases List.mem_cons.mp hmem with heq | hmem'
        · cases heq
        · exact ⟨op, a, hmem', hop, hl⟩
    | opcode op0 arg0 =>
      cases hr : renderOne labels op0 arg0 with
      | error e =>
        rw [codegen_cons_op_err _ _ _ _ _ hr]
        constructor
        · rintro -
          obtain ⟨a, ha, hop, hl⟩ := (renderOne_error_iff labels op0 arg0).mp ⟨e, hr⟩
          refine ⟨op0, a, ?_, hop, hl⟩
          rw [← ha]
          exact List.mem_cons_self _ _
        · rintro -
          exact ⟨e, rfl⟩
      | ok s =>
        rw [codegen_cons_op_ok _ _ _ _ _ hr]
        constructor
        · rintro ⟨e, he⟩
          cases hc : codegen labels rest with
          | error e' =>
            obtain ⟨op, a, hmem, hop, hl⟩ := ih.mp ⟨e', hc⟩
            exact ⟨op, a, List.mem_cons_of_mem _ hmem, hop, hl⟩
          | ok out => rw [hc] at he; cases he
        · rintro ⟨op, a, hmem, hop, hl⟩
          rcases List.mem_cons.mp hmem with heq | hmem'
          · exfalso
            injection heq with h1 h2
            have herr : ∃ e, renderOne labels op0 arg0 = .error e :=
              (renderOne_error_iff _ _ _).mpr ⟨a, h2.symm, h1 ▸ hop, hl⟩
            obtain ⟨e, he⟩ := herr
            rw [hr] at he
            cases he
          · obtain ⟨e', hc⟩ := ih.mpr ⟨op, a, hmem', hop, hl⟩
            rw [hc]
            exact ⟨e', rfl⟩

/-! ### Emission lemmas -/

theorem emitFrom_enumFrom (l : List String) : ∀ i : Nat,
    emitFrom i l =
      ((List.enumFrom i l).map (fun p => directive p.1 p.2)).foldr (· ++ ·) "" := by
  induction l with
  | nil => intro i; rfl
  | cons s rest ih =>
    intro i
    simp only [emitFrom, List.enumFrom, List.map, List.foldr]
    rw [ih]

/-! ### Shape of parsed nodes (branch opcodes always carry a label name) -/

/-- A node that, if it is a branch opcode with an argument, carries a
string (label-name) argument. -/
def nodeBranchOK (n : Node) : Prop :=
  ∀ op a, n = Node.opcode op (some a) → op ∈ branchOps → ∃ l, a = Arg.str l

theorem nodeBranchOK_noArg (op : String) : nodeBranchOK (Node.opcode op none) := by
  intro op' a h _
  injection h with h1 h2
  cases h2

theorem nodeBranchOK_str (op l : String) :
    nodeBranchOK (Node.opcode op (some (Arg.str l))) := by
  intro op' a h _
  injection h with h1 h2
  injection h2 with h3
  exact ⟨l, h3.symm⟩

theorem nodeBranchOK_label (m : String) : nodeBranchOK (Node.label m) := by
  intro op a h _
  exact Node.noConfusion h

theorem nodeBranchOK_notBranch {op : String} {arg : Option Arg}
    (h : op ∉ branchOps) : nodeBranchOK (Node.opcode op arg) := by
  intro op' a heq hmem
  injection heq with h1 h2
  subst h1
  exact absurd hmem h

theorem plainOpP_shape {w : String} {s : List Char} {n : Node} {r : List Char}
    (h : plainOpP w s = some (n, r)) : n = Node.opcode w none := by
  unfold plainOpP at h
  obtain ⟨v, hv, hn⟩ := pmap_eq_some h
  rw [hn, literalP_val hv]

theorem pushP_shape {s : List Char} {n : Node} {r : List Char}
    (h : pushP s = some (n, r)) : ∃ a, n = Node.opcode "push" (some a) := by
  unfold pushP at h
  obtain ⟨pr, hpr, hn⟩ := pmap_eq_some h
  obtain ⟨m, h1, -⟩ := pseq_eq_some hpr
  exact ⟨pr.2, by rw [hn, literalP_val h1]⟩

theorem arithOpP_shape {s : List Char} {n : Node} {r : List Char}
    (h : arithOpP s = some (n, r)) : ∃ w, n = Node.opcode w none := by
  unfold arithOpP at h
  rcases por_eq_some h with h1 | ⟨-, h1⟩
  · exact ⟨_, plainOpP_shape h1⟩
  rcases por_eq_some h1 with h2 | ⟨-, h2⟩
  · exact ⟨_, plainOpP_shape h2⟩
  rcases por_eq_some h2 with h3 | ⟨-, h3⟩
  · exact ⟨_, plainOpP_shape h3⟩
  rcases por_eq_some h3 with h4 | ⟨-, h4⟩
  · exact ⟨_, plainOpP_shape h4⟩
  rcases por_eq_some h4 with h5 | ⟨-, h5⟩
  · exact ⟨_, plainOpP_shape h5⟩
  rcases por_eq_some h5 with h6 | ⟨-, h6⟩
  · exact ⟨_, plainOpP_shape h6⟩
  · exact ⟨_, plainOpP_shape h6⟩

theorem logicalOpP_shape {s : List Char} {n : Node} {r : List Char}
    (h : logicalOpP s = some (n, r)) : ∃ w, n = Node.opcode w none := by
  unfold logicalOpP at h
  rcases por_eq_some h with h1 | ⟨-, h1⟩
  · obtain ⟨-, -, hn⟩ := pmap_eq_some h1; exact ⟨_, hn⟩
  rcases por_eq_some h1 with h2 | ⟨-, h2⟩
  · obtain ⟨-, -, hn⟩ := pmap_eq_some h2; exact ⟨_, hn⟩
  rcases por_eq_some h2 with h3 | ⟨-, h3⟩
  · obtain ⟨-, -, hn⟩ := pmap_eq_some h3; exact ⟨_, hn⟩
  rcases por_eq_some h3 with h4 | ⟨-, h4⟩
  · obtain ⟨-, -, hn⟩ := pmap_eq_some h4; exact ⟨_, hn⟩
  rcases por_eq_some h4 with h5 | ⟨-, h5⟩
  · obtain ⟨-, -, hn⟩ := pmap_eq_some h5; exact ⟨_, hn⟩
  · obtain ⟨-, -, hn⟩ := pmap_eq_some h5; exact ⟨_, hn⟩

theorem opcodeP_shape {s : List Char} {n : Node} {r : List Char}
    (h : opcodeP s = some (n, r)) : nodeBranchOK n := by
  unfold opcodeP at h
  obtain ⟨m, hm⟩ := tokenP_eq_some h
  rcases por_eq_some hm with h1 | ⟨-, h1⟩
  · unfold stackOpP at h1
    rcases por_eq_some h1 with h2 | ⟨-, h2⟩
    · obtain ⟨a, ha⟩ := pushP_shape h2
      rw [ha]
      exact nodeBranchOK_notBranch (by decide)
    rcases por_eq_some h2 with h3 | ⟨-, h3⟩
    · rw [plainOpP_shape h3]; exact nodeBranchOK_noArg _
    rcases por_eq_some h3 with h4 | ⟨-, h4⟩
    · rw [plainOpP_shape h4]; exact nodeBranchOK_noArg _
    · rw [plainOpP_shape h4]; exact nodeBranchOK_noArg _
  rcases por_eq_some h1 with h2 | ⟨-, h2⟩
  · obtain ⟨w, hw⟩ := arithOpP_shape h2
    rw [hw]; exact nodeBranchOK_noArg _
  rcases por_eq_some h2 with h3 | ⟨-, h3⟩
  · unfold branchOpP at h3
    rcases por_eq_some h3 with h4 | ⟨-, h4⟩
    · obtain ⟨x, -, hn⟩ := pmap_eq_some h4
      rw [hn]
      exact nodeBranchOK_str _ _
    · rw [plainOpP_shape h4]; exact nodeBranchOK_noArg _
  rcases por_eq_some h3 with h4 | ⟨-, h4⟩
  · obtain ⟨w, hw⟩ := logicalOpP_shape h4
    rw [hw]; exact nodeBranchOK_noArg _
  rcases por_eq_some h4 with h5 | ⟨-, h5⟩
  · unfold ioOpP at h5
    obtain ⟨x, -, hn⟩ := pmap_eq_some h5
    rw [hn]
    exact nodeBranchOK_str _ _
  · rw [plainOpP_shape h5]; exact nodeBranchOK_noArg _

theorem statementP_shape {s : List Char} {n : Node} {r : List Char}
    (h : statementP s = some (n, r)) : nodeBranchOK n := by
  unfold statementP at h
  rcases por_eq_some h with h1 | ⟨-, h1⟩
  · unfold labelP at h1
    obtain ⟨m, hm⟩ := tokenP_eq_some h1
    obtain ⟨x, -, hn⟩ := pmap_eq_some hm
    rw [hn]
    exact nodeBranchOK_label _
  · exact opcodeP_shape h1

theorem pmanyF_shape {p : P Node}
    (hp : ∀ s n r, p s = some (n, r) → nodeBranchOK n) :
    ∀ (f : Nat) (s : List Char) (ns : List Node) (r : List Char),
      pmanyF p f s = some (ns, r) → ∀ n ∈ ns, nodeBranchOK n := by
  intro f
  induction f with
  | zero =>
    intro s ns r h n hn
    have h' : some (([] : List Node), s) = some (ns, r) := h
    have hns : ([] : List Node) = ns := by
      injection h' with h1
      injection h1
    rw [← hns] at hn
    cases hn
  | succ f ih =>
    intro s ns r h n hn
    unfold pmanyF at h
    cases hps : p s with
    | none =>
      rw [hps] at h
      have hns : ([] : List Node) = ns := by
        injection h with h1
        injection h1
      rw [← hns] at hn
      cases hn
    | some ar =>
      obtain ⟨a, m⟩ := ar
      rw [hps] at h
      replace h : (pmanyF p f m).map (fun x => (a :: x.1, x.2)) = some (ns, r) := h
      cases hrec : pmanyF p f m with
      | none => rw [hrec] at h; cases h
      | some x =>
        obtain ⟨ns', r'⟩ := x
        rw [hrec] at h
        simp only [Option.map_some', Option.some.injEq, Prod.mk.injEq] at h
        obtain ⟨hns, -⟩ := h
        rw [← hns] at hn
        rcases List.mem_cons.mp hn with rfl | hn'
        · exact hp _ _ _ hps
        · exact ih m ns' r' hrec n hn'

theorem parseProgram_shape {src : String} {ast : List Node}
    (h : parseProgram src = some ast) : ∀ n ∈ ast, nodeBranchOK n := by
  unfold parseProgram at h
  cases hp : programP src.data with
  | none => rw [hp] at h; cases h
  | some x =>
    obtain ⟨a, r⟩ := x
    rw [hp] at h
    cases r with
    | cons c cs => exact absurd h (by simp)
    | nil =>
      have ha : a = ast := by
        have h' : some a = some ast := h
        injection h'
      subst ha
      unfold programP pright at hp
      obtain ⟨x2, hx2, hsnd⟩ := pmap_eq_some hp
      obtain ⟨m, -, hmany⟩ := pseq_eq_some hx2
      unfold pmany at hmany
      intro n hn
      have hshape := pmanyF_shape (fun s n r h => statementP_shape h)
        (m.length + 1) m x2.2 [] hmany
      rw [hsnd] at hn
      exact hshape n hn

/-! ### Forward evaluation lemmas for running the parser symbolically -/

theorem pmap_some {f : α → β} {p : P α} {s : List Char} {a : α} {r : List Char}
    (hp : p s = some (a, r)) : pmap f p s = some (f a, r) := by
  rw [pmap_eval, hp]
  rfl

theorem pmap_none {f : α → β} {p : P α} {s : List Char}
    (hp : p s = none) : pmap f p s = none := by
  rw [pmap_eval, hp]
  rfl

theorem pseq_some {p : P α} {q : P β} {s : List Char} {a : α} {m : List Char}
    {b : β} {r : List Char} (hp : p s = some (a, m)) (hq : q m = some (b, r)) :
    pseq p q s = some ((a, b), r) := by
  rw [pseq_eval hp, hq]
  rfl

theorem pleft_eval {p : P α} {q : P β} {s : List Char} {a : α} {m : List Char}
    {b : β} {r : List Char} (hp : p s = some (a, m)) (hq : q m = some (b, r)) :
    pleft p q s = some (a, r) := by
  unfold pleft
  rw [pmap_eval, pseq_eval hp, hq]
  rfl

theorem pright_eval {p : P α} {q : P β} {s : List Char} {a : α} {m : List Char}
    {b : β} {r : List Char} (hp : p s = some (a, m)) (hq : q m = some (b, r)) :
    pright p q s = some (b, r) := by
  unfold pright
  rw [pmap_eval, pseq_eval hp, hq]
  rfl

theorem tokenP_eval {p : P α} {s : List Char} {a : α} {m : List Char}
    (hp : p s = some (a, m)) :
    tokenP p s = some (a, m.dropWhile isSpaceChar) := by
  unfold tokenP
  exact pleft_eval hp rfl

theorem pmanyF_nil (p : P α) (h : p [] = none) :
    ∀ f, pmanyF p f [] = some ([], []) := by
  intro f
  cases f with
  | zero => rfl
  | succ f =>
    unfold pmanyF
    rw [h]

theorem pmany_single {p : P α} {s : List Char} {a : α}
    (h : p s = some (a, [])) (hnil : p [] = none) :
    pmany p s = some ([a], []) := by
  unfold pmany
  simp only [pmanyF, h, pmanyF_nil p hnil, Option.map_some']

theorem programP_single {s : List Char} {n : Node}
    (hws : s.dropWhile isSpaceChar = s)
    (hst : statementP s = some (n, []))
    (hnil : statementP [] = none) :
    programP s = some ([n], []) := by
  unfold programP
  have hw : whitespaceP s = some ((), s) := by
    unfold whitespaceP
    rw [hws]
  exact pright_eval hw (pmany_single hst hnil)

theorem parseProgram_of_programP {src : String} {ast : List Node}
    (h : programP src.data = some (ast, [])) : parseProgram src = some ast := by
  unfold parseProgram
  rw [h]

theorem assembleInstrs_eval {src : String} {ast : List Node} {out : List String}
    (hp : parseProgram src = some ast)
    (hc : codegen (buildLabels ast) ast = .ok out) :
    assembleInstrs src = .ok out := by
  unfold assembleInstrs
  rw [hp]
  have hstep : (match codegen (buildLabels ast) ast with
      | Except.error m => Except.error (AsmError.undefinedLabel m)
      | Except.ok out => Except.ok out) = Except.ok out := by
    rw [hc]
  exact hstep

theorem assembleInstrs_err {src : String} {ast : List Node} {e : String}
    (hp : parseProgram src = some ast)
    (hc : codegen (buildLabels ast) ast = .error e) :
    assembleInstrs src = .error (.undefinedLabel e) := by
  unfold assembleInstrs
  rw [hp]
  have hstep : (match codegen (buildLabels ast) ast with
      | Except.error m => Except.error (AsmError.undefinedLabel m)
      | Except.ok out => Except.ok out) =
      Except.error (AsmError.undefinedLabel e) := by
    rw [hc]
  exact hstep

theorem assembleInstrs_parseFailure {src : String}
    (hp : parseProgram src = none) :
    assembleInstrs src = .error .parseFailure := by
  unfold assembleInstrs
  rw [hp]

/-! ### Symbolic runs of the statement parser -/

/-- `push /<ident>` parses to a push node whose argument keeps the `/`. -/
theorem statementP_push_slash (l : String) (hl : isIdentString l = true) :
    statementP ('p' :: 'u' :: 's' :: 'h' :: ' ' :: '/' :: l.data) =
      some (Node.opcode "push" (some (Arg.str ("/" ++ l))), []) := by
  have hid : identifierP l.data = some (l, []) := by
    have h := identifierP_exact l [] hl rfl
    simpa using h
  have hlit : literalP "push" ('p' :: 'u' :: 's' :: 'h' :: ' ' :: '/' :: l.data) =
      some ("push", '/' :: l.data) := rfl
  have hslash : slashStringP ('/' :: l.data) = some (Arg.str ("/" ++ l), []) := by
    unfold slashStringP
    exact pmap_some (pseq_some (show stringP "/" ('/' :: l.data) =
      some ("/", l.data) from rfl) hid)
  have hoperand : por numberP (por booleanP slashStringP) ('/' :: l.data) =
      some (Arg.str ("/" ++ l), []) := by
    rw [por_second (show numberP ('/' :: l.data) = none from rfl),
      por_second (show booleanP ('/' :: l.data) = none from rfl)]
    exact hslash
  have hpush : pushP ('p' :: 'u' :: 's' :: 'h' :: ' ' :: '/' :: l.data) =
      some (Node.opcode "push" (some (Arg.str ("/" ++ l))), []) := by
    unfold pushP
    exact pmap_some (pseq_some hlit hoperand)
  have hstack : stackOpP ('p' :: 'u' :: 's' :: 'h' :: ' ' :: '/' :: l.data) =
      some (Node.opcode "push" (some (Arg.str ("/" ++ l))), []) := by
    unfold stackOpP
    exact por_first hpush
  have hopc : opcodeP ('p' :: 'u' :: 's' :: 'h' :: ' ' :: '/' :: l.data) =
      some (Node.opcode "push" (some (Arg.str ("/" ++ l))), []) := by
    unfold opcodeP
    exact tokenP_eval (por_first hstack)
  unfold statementP
  rw [por_second (show labelP ('p' :: 'u' :: 's' :: 'h' :: ' ' :: '/' :: l.data) =
    none from rfl)]
  exact hopc

/-- `push <digits>` parses to a push node carrying `int()` of the digits. -/
theorem statementP_push_digits (ds : List Char) (h1 : ds ≠ [])
    (h2 : ∀ c ∈ ds, c.isDigit = true) :
    statementP ('p' :: 'u' :: 's' :: 'h' :: ' ' :: ds) =
      some (Node.opcode "push" (some (Arg.int (digitsVal ds))), []) := by
  have hlit : literalP "push" ('p' :: 'u' :: 's' :: 'h' :: ' ' :: ds) =
      some ("push", ds) := by
    have h : literalP "push" ('p' :: 'u' :: 's' :: 'h' :: ' ' :: ds) =
        some ("push", ds.dropWhile isSpaceChar) := rfl
    rw [h, dropWhile_space_digits h2]
  have hfl : floatP ds = none := by
    unfold floatP
    rw [dropWhile_all h2]
  have hint : integerP ds = some ((digitsVal ds : Int), []) := by
    cases ds with
    | nil => exact absurd rfl h1
    | cons d rest =>
      unfold integerP
      rw [takeWhile_all h2, dropWhile_all h2]
      rfl
  have hnum : numberP ds = some (Arg.int (digitsVal ds), []) := by
    unfold numberP
    rw [por_second (pmap_none hfl)]
    exact pmap_some hint
  have hoperand : por numberP (por booleanP slashStringP) ds =
      some (Arg.int (digitsVal ds), []) := por_first hnum
  have hpush : pushP ('p' :: 'u' :: 's' :: 'h' :: ' ' :: ds) =
      some (Node.opcode "push" (some (Arg.int (digitsVal ds))), []) := by
    unfold pushP
    exact pmap_some (pseq_some hlit hoperand)
  have hstack : stackOpP ('p' :: 'u' :: 's' :: 'h' :: ' ' :: ds) =
      some (Node.opcode "push" (some (Arg.int (digitsVal ds))), []) := by
    unfold stackOpP
    exact por_first hpush
  have hopc : opcodeP ('p' :: 'u' :: 's' :: 'h' :: ' ' :: ds) =
      some (Node.opcode "push" (some (Arg.int (digitsVal ds))), []) := by
    unfold opcodeP
    exact tokenP_eval (por_first hstack)
  unfold statementP
  rw [por_second (show labelP ('p' :: 'u' :: 's' :: 'h' :: ' ' :: ds) =
    none from rfl)]
  exact hopc

/-- `<ident>:` parses as a label declaration, whatever the identifier is. -/
theorem statementP_label (w : String) (hw : isIdentString w = true) :
    statementP (w.data ++ [':']) = some (Node.label w, []) := by
  have hid : identifierP (w.data ++ [':']) = some (w, [':']) :=
    identifierP_exact w [':'] hw (by decide)
  have hinner : pleft identifierP (stringP ":") (w.data ++ [':']) =
      some (w, []) :=
    pleft_eval hid rfl
  have hlab : labelP (w.data ++ [':']) = some (Node.label w, []) := by
    unfold labelP
    exact tokenP_eval (pmap_some hinner)
  unfold statementP
  exact por_first hlab

/-! ### The claims -/

/-- C1: the address the label pass binds to a label equals the number of
opcode (Instruction) nodes strictly before that label node in source
order, and label nodes never advance the address counter: the counter
starts at 0 and ends at exactly the number of opcode nodes. -/
theorem fasm_label_address_invariant (ast pre post : List Node) (name : String)
    (hsplit : ast = pre ++ Node.label name :: post)
    (hlast : name ∉ labelNames post) :
    (buildLabels ast).lookup name = some (countInstr pre) ∧
    (labelPass ast 0 []).2 = countInstr ast := by
  subst hsplit
  refine ⟨buildLabels_lookup_last pre post name hlast, ?_⟩
  rw [labelPass_counter]
  exact Nat.zero_add _

/-- Witness for C1 at the spec's end-to-end example
`start: push 1 / push 2 / add / jmp start`: `start` resolves to address 0
and the counter ends at 4. -/
theorem fasm_label_address_invariant_witness :
    (buildLabels [Node.label "start", Node.opcode "push" (some (Arg.int 1)),
      Node.opcode "push" (some (Arg.int 2)), Node.opcode "add" none,
      Node.opcode "jmp" (some (Arg.str "start"))]).lookup "start" =
      some (countInstr ([] : List Node)) ∧
    (labelPass [Node.label "start", Node.opcode "push" (some (Arg.int 1)),
      Node.opcode "push" (some (Arg.int 2)), Node.opcode "add" none,
      Node.opcode "jmp" (some (Arg.str "start"))] 0 []).2 =
      countInstr [Node.label "start", Node.opcode "push" (some (Arg.int 1)),
        Node.opcode "push" (some (Arg.int 2)), Node.opcode "add" none,
        Node.opcode "jmp" (some (Arg.str "start"))] :=
  fasm_label_address_invariant
    [Node.label "start", Node.opcode "push" (some (Arg.int 1)),
      Node.opcode "push" (some (Arg.int 2)), Node.opcode "add" none,
      Node.opcode "jmp" (some (Arg.str "start"))]
    []
    [Node.opcode "push" (some (Arg.int 1)),
      Node.opcode "push" (some (Arg.int 2)), Node.opcode "add" none,
      Node.opcode "jmp" (some (Arg.str "start"))]
    "start" rfl (by decide)

/-- C2 counterexample: `push /hello` renders as `push /hello`, not
`push hello` — parsy `+` concatenates the `/` marker into the string
value and the generator renders the value verbatim, so the marker is NOT
stripped from the output. -/
theorem fasm_push_marker_counterexample :
    assembleInstrs "push /hello" = .ok ["push /hello"] ∧
    assembleInstrs "push /hello" ≠ .ok ["push hello"] := by
  exact ⟨by decide, by decide⟩

/-- C2 (amended): for every push instruction whose operand is a string
literal introduced by the `/` marker, the rendered instruction text is
the opcode followed by the operand text with the marker retained:
`push /<ident>` renders as `push /<ident>`. -/
theorem fasm_push_string_marker_retained (l : String)
    (hl : isIdentString l = true) :
    assembleInstrs ("push /" ++ l) = .ok ["push /" ++ l] := by
  obtain ⟨ld⟩ := l
  have hst := statementP_push_slash ⟨ld⟩ hl
  have hprog : programP ("push /" ++ String.mk ld).data =
      some ([Node.opcode "push" (some (Arg.str ("/" ++ String.mk ld)))], []) := by
    exact programP_single rfl hst (by decide)
  have hparse := parseProgram_of_programP hprog
  have hcg : codegen
      (buildLabels [Node.opcode "push" (some (Arg.str ("/" ++ String.mk ld)))])
      [Node.opcode "push" (some (Arg.str ("/" ++ String.mk ld)))] =
      .ok ["push" ++ " " ++ renderArg (Arg.str ("/" ++ String.mk ld))] := by
    rw [codegen_cons_op_ok _ _ _ _ _ (renderOne_plain _ _ _ (by decide))]
    rfl
  exact assembleInstrs_eval hparse hcg

/-- Witness for the amended C2 at `push /hello`. -/
theorem fasm_push_string_marker_retained_witness :
    assembleInstrs ("push /" ++ "hello") = .ok ["push /" ++ "hello"] :=
  fasm_push_string_marker_retained "hello" (by decide)

/-- C3 counterexample: with `a` declared three times and a `jmp a` between
the second and third declarations, the jump renders with the address of
the THIRD (final) declaration (`jmp 3`), not the second (`jmp 1`): the
label table is completed before any generation lookup happens. -/
theorem fasm_duplicate_label_counterexample :
    assembleInstrs "a: push 1\na: push 2\njmp a\na: push 3" =
      .ok ["push 1", "push 2", "jmp 3", "push 3"] ∧
    assembleInstrs "a: push 1\na: push 2\njmp a\na: push 3" ≠
      .ok ["push 1", "push 2", "jmp 1", "push 3"] := by
  exact ⟨by decide, by decide⟩

/-- C3 (amended): when a label is declared several times, every branch
instruction referencing it — wherever it sits relative to the
declarations — renders with the address of the LAST declaration, i.e.
the count of opcode nodes before that final declaration (generation
lookups read the completed table, in which the last declaration won). -/
theorem fasm_duplicate_label_last_wins (ast pre post : List Node)
    (name op : String) (hsplit : ast = pre ++ Node.label name :: post)
    (hlast : name ∉ labelNames post) (hop : op ∈ branchOps) :
    renderOne (buildLabels ast) op (some (Arg.str name)) =
      .ok (op ++ " " ++ toString (countInstr pre)) := by
  subst hsplit
  exact renderOne_branch_hit _ _ _ _ hop
    (buildLabels_lookup_last pre post name hlast)

/-- Witness for the amended C3 at the counterexample program: the `jmp a`
between the second and third declarations of `a` renders with address 3,
the position of the last declaration. -/
theorem fasm_duplicate_label_last_wins_witness :
    renderOne (buildLabels [Node.label "a", Node.opcode "push" (some (Arg.int 1)),
      Node.label "a", Node.opcode "push" (some (Arg.int 2)),
      Node.opcode "jmp" (some (Arg.str "a")), Node.label "a",
      Node.opcode "push" (some (Arg.int 3))]) "jmp" (some (Arg.str "a")) =
      .ok ("jmp" ++ " " ++ toString (countInstr
        [Node.label "a", Node.opcode "push" (some (Arg.int 1)),
          Node.label "a", Node.opcode "push" (some (Arg.int 2)),
          Node.opcode "jmp" (some (Arg.str "a"))])) :=
  fasm_duplicate_label_last_wins
    [Node.label "a", Node.opcode "push" (some (Arg.int 1)),
      Node.label "a", Node.opcode "push" (some (Arg.int 2)),
      Node.opcode "jmp" (some (Arg.str "a")), Node.label "a",
      Node.opcode "push" (some (Arg.int 3))]
    [Node.label "a", Node.opcode "push" (some (Arg.int 1)),
      Node.label "a", Node.opcode "push" (some (Arg.int 2)),
      Node.opcode "jmp" (some (Arg.str "a"))]
    [Node.opcode "push" (some (Arg.int 3))]
    "a" "jmp" rfl (by decide) (by decide)

/-- C4: when a label is declared exactly once, every branch opcode
(`jmp`/`jif`/`call`) referencing it renders with the same address — the
number of opcode nodes before the declaration — regardless of where the
reference sits; and the forward-reference example `jmp end` / `end: hlt`
renders the jump with the address of the `hlt`. -/
theorem fasm_single_label_resolution (ast pre post : List Node)
    (name op : String) (hsplit : ast = pre ++ Node.label name :: post)
    (hpre : name ∉ labelNames pre) (hpost : name ∉ labelNames post)
    (hop : op ∈ branchOps) :
    renderOne (buildLabels ast) op (some (Arg.str name)) =
      .ok (op ++ " " ++ toString (countInstr pre)) ∧
    assembleInstrs "jmp end\nend: hlt" = .ok ["jmp 1", "hlt"] := by
  subst hsplit
  exact ⟨renderOne_branch_hit _ _ _ _ hop
    (buildLabels_lookup_last pre post name hpost), by decide⟩

/-- Witness for C4 at the forward-reference example. -/
theorem fasm_single_label_resolution_witness :
    renderOne (buildLabels [Node.opcode "jmp" (some (Arg.str "end")),
      Node.label "end", Node.opcode "hlt" none]) "jmp" (some (Arg.str "end")) =
      .ok ("jmp" ++ " " ++
        toString (countInstr [Node.opcode "jmp" (some (Arg.str "end"))])) ∧
    assembleInstrs "jmp end\nend: hlt" = .ok ["jmp 1", "hlt"] :=
  fasm_single_label_resolution
    [Node.opcode "jmp" (some (Arg.str "end")), Node.label "end",
      Node.opcode "hlt" none]
    [Node.opcode "jmp" (some (Arg.str "end"))]
    [Node.opcode "hlt" none]
    "end" "jmp" rfl (by decide) (by decide) (by decide)

/-- C5: for a parsed program, code generation raises an error if and only
if some branch opcode (`jmp`/`jif`/`call`) references a label name
declared nowhere in the node sequence (the parser accepts such programs —
detection happens only at generation, the label pass being total), and
when generation errors the pipeline produces no output. -/
theorem fasm_undefined_label_error (src : String) (ast : List Node)
    (hparse : parseProgram src = some ast) :
    ((∃ e, codegen (buildLabels ast) ast = .error e) ↔
      (∃ op l, Node.opcode op (some (Arg.str l)) ∈ ast ∧ op ∈ branchOps ∧
        l ∉ labelNames ast)) ∧
    ((∃ e, codegen (buildLabels ast) ast = .error e) →
      ∀ out, assembleInstrs src ≠ .ok out) := by
  constructor
  · rw [codegen_error_iff]
    constructor
    · rintro ⟨op, a, hmem, hop, hl⟩
      obtain ⟨l, rfl⟩ :=
        parseProgram_shape hparse (Node.opcode op (some a)) hmem op a rfl hop
      refine ⟨op, l, hmem, hop, ?_⟩
      have hnone : (buildLabels ast).lookup l = none := hl
      exact (buildLabels_lookup_none_iff ast l).mp hnone
    · rintro ⟨op, l, hmem, hop, hl⟩
      refine ⟨op, Arg.str l, hmem, hop, ?_⟩
      show (buildLabels ast).lookup l = none
      exact (buildLabels_lookup_none_iff ast l).mpr hl
  · rintro ⟨e, he⟩ out hok
    rw [assembleInstrs_err hparse he] at hok
    cases hok

/-- Witness for C5 at `call missing`: parsing succeeds, generation errors,
and no output is produced. -/
theorem fasm_undefined_label_error_witness :
    (∃ e, codegen (buildLabels [Node.opcode "call" (some (Arg.str "missing"))])
      [Node.opcode "call" (some (Arg.str "missing"))] = .error e) ∧
    parseProgram "call missing" =
      some [Node.opcode "call" (some (Arg.str "missing"))] ∧
    (∀ out, assembleInstrs "call missing" ≠ .ok out) := by
  have hp : parseProgram "call missing" =
      some [Node.opcode "call" (some (Arg.str "missing"))] := by decide
  have h := fasm_undefined_label_error "call missing" _ hp
  have herr := h.1.mpr ⟨"call", "missing", by decide, by decide, by decide⟩
  exact ⟨herr, hp, h.2 herr⟩

/-- C6: the output of a successfully generated program has exactly one
directive per opcode (Instruction) node — label nodes contribute none —
and the emitted text is the concatenation, in instruction order, of
directives pairing the synthetic name `alias __svm.<i>` (indices
contiguous from 0) with the instruction's rendered text in quotes. -/
theorem fasm_emission_directives (src : String) (ast : List Node)
    (out : List String) (hparse : parseProgram src = some ast)
    (hgen : codegen (buildLabels ast) ast = .ok out) :
    out.length = countInstr ast ∧
    emit out = ((out.enum.map (fun p => directive p.1 p.2)).foldr (· ++ ·) "") := by
  refine ⟨codegen_ok_length _ _ _ hgen, ?_⟩
  unfold emit
  rw [emitFrom_enumFrom]
  rfl

/-- Witness for C6 at the spec's end-to-end example. -/
theorem fasm_emission_directives_witness :
    (["push 1", "push 2", "add", "jmp 0"] : List String).length =
      countInstr [Node.label "start", Node.opcode "push" (some (Arg.int 1)),
        Node.opcode "push" (some (Arg.int 2)), Node.opcode "add" none,
        Node.opcode "jmp" (some (Arg.str "start"))] ∧
    emit ["push 1", "push 2", "add", "jmp 0"] =
      (((["push 1", "push 2", "add", "jmp 0"] : List String).enum.map
        (fun p => directive p.1 p.2)).foldr (· ++ ·) "") :=
  fasm_emission_directives "start: push 1\npush 2\nadd\njmp start"
    [Node.label "start", Node.opcode "push" (some (Arg.int 1)),
      Node.opcode "push" (some (Arg.int 2)), Node.opcode "add" none,
      Node.opcode "jmp" (some (Arg.str "start"))]
    ["push 1", "push 2", "add", "jmp 0"] (by decide) (by decide)

/-- C7: parsing is all-or-nothing — `parse` succeeds with a node sequence
exactly when the underlying parser consumes the entire input, and any
unconsumed trailing content makes the whole parse (and the pipeline) fail
with a syntax error, so no partial node sequence reaches later passes. -/
theorem fasm_parse_all_or_nothing (s : String) :
    (∀ ast, parseProgram s = some ast ↔ programP s.data = some (ast, [])) ∧
    (∀ ast rest, programP s.data = some (ast, rest) → rest ≠ [] →
      parseProgram s = none ∧ assembleInstrs s = .error .parseFailure) := by
  constructor
  · intro ast
    constructor
    · intro h
      unfold parseProgram at h
      cases hp : programP s.data with
      | none => rw [hp] at h; cases h
      | some x =>
        obtain ⟨a, r⟩ := x
        rw [hp] at h
        cases r with
        | nil =>
          have ha : a = ast := by
            have h' : some a = some ast := h
            injection h'
          rw [ha]
        | cons c cs =>
          exact absurd (show (none : Option (List Node)) = some ast from h)
            (by simp)
    · intro h
      unfold parseProgram
      rw [h]
  · intro ast rest hp hne
    cases rest with
    | nil => exact absurd rfl hne
    | cons c cs =>
      have hnone : parseProgram s = none := by
        unfold parseProgram
        rw [hp]
      exact ⟨hnone, assembleInstrs_parseFailure hnone⟩

/-- Witness for C7 at `add x`: the prefix `add ` parses as a statement but
the trailing `x` is unconsumed, so the whole parse fails and the pipeline
reports a syntax error. -/
theorem fasm_parse_all_or_nothing_witness :
    parseProgram "add x" = none ∧
    assembleInstrs "add x" = .error .parseFailure :=
  (fasm_parse_all_or_nothing "add x").2 [Node.opcode "add" none] ['x']
    (by decide) (by decide)

/-- C8: a keyword token (`literal`) matches at a position exactly when the
keyword characters are present there AND the next character cannot extend
a word (the `\b` boundary), so an identifier that merely begins with a
keyword is never tokenized as that keyword; `store popular` parses with
operand identifier `popular`, and `popular` alone is not a statement. -/
theorem fasm_keyword_boundary (w : String) (cs : List Char)
    (hne : w.data ≠ []) (hword : ∀ c ∈ w.data, isWordChar c = true) :
    ((literalP w cs).isSome =
      (decide (cs.take w.data.length = w.data) &&
        boundaryOk (cs.drop w.data.length))) ∧
    parseProgram "store popular" =
      some [Node.opcode "store_l" (some (Arg.str "popular"))] ∧
    parseProgram "popular" = none := by
  refine ⟨?_, by decide, by decide⟩
  unfold literalP
  rw [tokenP_isSome]
  rw [strMatch_char]
  by_cases h : cs.take w.data.length = w.data
  · rw [if_pos h, Option.some_bind]
    by_cases hb : boundaryOk (cs.drop w.data.length) = true
    · rw [if_pos hb, Option.isSome_some, decide_eq_true h, hb]
      rfl
    · cases hbb : boundaryOk (cs.drop w.data.length) with
      | true => exact absurd hbb hb
      | false =>
        rw [decide_eq_true h]
        simp
  · rw [if_neg h, Option.none_bind, Option.isSome_none, decide_eq_false h,
      Bool.false_and]

/-- Witness for C8 at `pop` inside `popular`: the boundary check rejects
the match. -/
theorem fasm_keyword_boundary_witness :
    (literalP "pop" "popular".data).isSome =
      (decide ("popular".data.take "pop".data.length = "pop".data) &&
        boundaryOk ("popular".data.drop "pop".data.length)) ∧
    (literalP "pop" "popular".data).isSome = false := by
  have h := (fasm_keyword_boundary "pop" "popular".data (by decide) (by decide)).1
  refine ⟨h, ?_⟩
  rw [h]
  decide

/-- C9: numeric push operands are normalized at parse time — an integer
literal is rendered as the decimal form of its `int()` value (so `push
007` renders as `push 7`) and a float literal as the `str()` form of its
`float()` value (so `push .5` renders as `push 0.5`), not as the source
spelling. -/
theorem fasm_push_numeric_normalization (ds : List Char) (h1 : ds ≠ [])
    (h2 : ∀ c ∈ ds, c.isDigit = true) :
    assembleInstrs ("push " ++ String.mk ds) =
      .ok ["push " ++ toString (digitsVal ds : Int)] ∧
    assembleInstrs "push 007" = .ok ["push 7"] ∧
    assembleInstrs "push .5" = .ok ["push 0.5"] := by
  refine ⟨?_, by decide, by decide⟩
  have hst := statementP_push_digits ds h1 h2
  have hprog : programP ("push " ++ String.mk ds).data =
      some ([Node.opcode "push" (some (Arg.int (digitsVal ds)))], []) := by
    exact programP_single rfl hst (by decide)
  have hparse := parseProgram_of_programP hprog
  have hcg : codegen
      (buildLabels [Node.opcode "push" (some (Arg.int (digitsVal ds)))])
      [Node.opcode "push" (some (Arg.int (digitsVal ds)))] =
      .ok ["push" ++ " " ++ renderArg (Arg.int (digitsVal ds))] := by
    rw [codegen_cons_op_ok _ _ _ _ _ (renderOne_plain _ _ _ (by decide))]
    rfl
  exact assembleInstrs_eval hparse hcg

/-- Witness for C9 at `push 007`. -/
theorem fasm_push_numeric_normalization_witness :
    assembleInstrs ("push " ++ String.mk ['0', '0', '7']) =
      .ok ["push " ++ toString (digitsVal ['0', '0', '7'] : Int)] :=
  (fasm_push_numeric_normalization ['0', '0', '7'] (by decide) (by decide)).1

/-- C10: `statement` tries the label alternative before the opcode
alternative, so any identifier immediately followed by `:` parses as a
label declaration — even when the identifier equals an opcode mnemonic:
`add:` yields the single label node `add`, which occupies no address
slot. -/
theorem fasm_label_priority (w : String) (hw : isIdentString w = true) :
    parseProgram (w ++ ":") = some [Node.label w] ∧
    countInstr [Node.label w] = 0 ∧
    parseProgram "add:" = some [Node.label "add"] := by
  refine ⟨?_, rfl, by decide⟩
  obtain ⟨wd⟩ := w
  have hst := statementP_label ⟨wd⟩ hw
  apply parseProgram_of_programP
  refine programP_single ?_ hst (by decide)
  cases wd with
  | nil => exact absurd hw (by decide)
  | cons c cs =>
    have hc : isIdentStart c = true := by
      have h' : (isIdentStart c && cs.all isWordChar) = true := hw
      exact ((Bool.and_eq_true _ _).mp h').1
    have hspace : isSpaceChar c = false := by
      cases hs : isSpaceChar c with
      | false => rfl
      | true => rw [space_not_identStart hs] at hc; cases hc
    show List.dropWhile isSpaceChar ((c :: cs) ++ [':']) = (c :: cs) ++ [':']
    simp [List.dropWhile_cons, hspace]

/-- Witness for C10 at `add:`. -/
theorem fasm_label_priority_witness :
    parseProgram ("add" ++ ":") = some [Node.label "add"] ∧
    countInstr [Node.label "add"] = 0 :=
  ⟨(fasm_label_priority "add" (by decide)).1,
    (fasm_label_priority "add" (by decide)).2.1⟩

end Fasm
